import Mathlib

/-!
Verification of the gargs command-fan-out tool (src/main.go) against its
natural-language specification.

The development shallowly embeds the Go source: strings are `List Char`,
the mutable run state is threaded explicitly, Go channel close is modelled
by a flag together with a panic bit (closing an already-closed channel
panics in Go), and fallible operations (template execute, template parse)
return `Option`.  The external process-execution engine (package
`github.com/brentp/gargs/process`) is modelled by the list of results it
would deliver, per the contract in the spec.
-/

/-- An execution result delivered by the external engine: an exit status
and the captured output stream (spec section 6: `Result` exposes
`exitStatus() -> int` and a readable byte stream).  Exit statuses of
spawned processes are non-negative. -/
structure GoResult where
  exitCode : Nat
  output : List Char
deriving DecidableEq

/-- The orchestrator-visible mutable state of `run`/`main` in main.go:
the package-level `ExitCode`, the bytes written to the buffered stdout,
whether the `cancel` channel has been closed, and whether a Go runtime
panic has occurred. -/
structure RunState where
  exitCode : Nat
  out : List Char
  cancelClosed : Bool
  panicked : Bool
deriving DecidableEq

/-- Initial state: `ExitCode = 0` (main.go line 24), empty output,
`cancel` open. -/
def initState : RunState := ⟨0, [], false, false⟩

/-- main.go lines 122-127: `func max(a, b int) int`. -/
def goMax (a b : Nat) : Nat := if a > b then a else b

/-- Go's `close` on the `cancel` channel: closing an open channel closes
it; closing an already-closed channel panics ("close of closed channel"). -/
def closeCancel (st : RunState) : RunState :=
  if st.cancelClosed then { st with panicked := true }
  else { st with cancelClosed := true }

/-- The result-consumption loop of `run` (main.go lines 140-149): for each
result, if its exit status is non-zero update `ExitCode` with `goMax` and,
unless continue-on-error is set, close `cancel` and break out of the loop
(skipping the `io.Copy`); otherwise copy the result's output to stdout and
continue. -/
def runLoop (continueOnError : Bool) : List GoResult → RunState → RunState
  | [], st => st
  | r :: rs, st =>
    if r.exitCode ≠ 0 then
      let st1 : RunState := { st with exitCode := goMax st.exitCode r.exitCode }
      if continueOnError then
        runLoop continueOnError rs { st1 with out := st1.out ++ r.output }
      else
        closeCancel st1
    else
      runLoop continueOnError rs { st with out := st.out ++ r.output }

/-- `run` (main.go lines 129-151): drain the engine's result stream, then
run the deferred `close(cancel)` (line 138) on the way out.  `results` is
the stream of results the engine delivers; when the loop breaks early the
remaining results are never received. -/
def run (continueOnError : Bool) (results : List GoResult) : RunState :=
  closeCancel (runLoop continueOnError results initState)

/-- The process exit status after `run` returns: `os.Exit(ExitCode)`
(main.go line 56) on a normal return, status 2 when the Go runtime aborts
on an unrecovered panic. -/
def mainExit (st : RunState) : Nat := if st.panicked then 2 else st.exitCode

/-- One `ExitCode` update step, extracted from main.go lines 141-142. -/
def stepExit (cur : Nat) (r : GoResult) : Nat :=
  if r.exitCode ≠ 0 then goMax cur r.exitCode else cur

/-- The aggregated exit code after processing a list of received results. -/
def exitCodeFold (rs : List GoResult) : Nat := rs.foldl stepExit 0

/-- The prefix of the engine's result stream that the loop actually
receives: everything when continue-on-error is set, otherwise the results
through the first one with a non-zero exit status (inclusive: that result
still updates `ExitCode` before the break). -/
def receivedResults : Bool → List GoResult → List GoResult
  | true, rs => rs
  | false, [] => []
  | false, r :: rs =>
    if r.exitCode ≠ 0 then [r] else r :: receivedResults false rs

/-- The results whose output gets copied to stdout: all of them when
continue-on-error is set, otherwise only the zero-status prefix (the
result that triggers cancellation breaks out before its `io.Copy`). -/
def copiedResults (c : Bool) (rs : List GoResult) : List GoResult :=
  if c then rs else rs.takeWhile (fun r => r.exitCode = 0)

/-- Concatenation of the outputs of a list of results. -/
def joinOutputs (rs : List GoResult) : List Char := (rs.map GoResult.output).flatten

/-! ## Input line framing (main.go lines 85-106)

`rdr.ReadString('\n')` returns successive chunks of the input, each ending
with the newline delimiter, plus a final delimiter-less chunk when the
input does not end in a newline (delivered together with `io.EOF` and
processed because `len(line) > 0`). -/

/-- Accumulator form of the `ReadString('\n')` chunking: split the input
after every newline, each chunk keeping its trailing newline; a non-empty
final chunk without a newline is kept, an empty one is not (the loop
breaks on bare `io.EOF`). -/
def splitChunksAux (acc : List Char) : List Char → List (List Char)
  | [] => if acc.isEmpty then [] else [acc.reverse]
  | c :: cs =>
    if c = '\n' then (acc.reverse ++ ['\n']) :: splitChunksAux [] cs
    else splitChunksAux (c :: acc) cs

/-- The sequence of chunks `ReadString('\n')` delivers for a given input. -/
def readChunks (input : List Char) : List (List Char) := splitChunksAux [] input

/-- main.go lines 86 and 93: `regexp.MustCompile("\r?\n")` and
`re.ReplaceAllString(line, "")`: delete every newline together with an
immediately preceding carriage return; a carriage return not followed by a
newline is left in place. -/
def replaceCrLf : List Char → List Char
  | [] => []
  | [c] => if c = '\n' then [] else [c]
  | c :: c2 :: cs =>
    if c = '\r' ∧ c2 = '\n' then replaceCrLf cs
    else if c = '\n' then replaceCrLf (c2 :: cs)
    else c :: replaceCrLf (c2 :: cs)

/-- The lines the generator loop processes: each chunk with its line
ending removed by the `\r?\n` regex replacement. -/
def getLines (input : List Char) : List (List Char) := (readChunks input).map replaceCrLf

/-- Spec-side helper: remove one trailing carriage return if present
(the spec's "a trailing carriage return, if present, is stripped"). -/
def dropTrailingCr : List Char → List Char
  | [] => []
  | [c] => if c = '\r' then [] else [c]
  | c :: c2 :: cs => c :: dropTrailingCr (c2 :: cs)

/-! ## Compiled templates and rendering -/

/-- The template context (main.go lines 39-42, `type tmplArgs struct`). -/
structure TmplArgs where
  Lines : List (List Char)
  Xs : List (List Char)
deriving DecidableEq

/-- A compiled template is a sequence of items: a literal character, the
action `index .Lines 0` produced for `\x7b\x7d`, or the action
`index .Xs n` produced for an indexed placeholder. -/
inductive TmplItem where
  | lit (c : Char)
  | lineRef
  | xRef (n : Nat)
deriving DecidableEq

/-- `tmpl.Execute`: render the items against a context; Go's `index`
builtin returns an error when the index is out of range (including
`index .Lines 0` on an empty `Lines`), which makes `Execute` fail. -/
def renderItems : List TmplItem → TmplArgs → Option (List Char)
  | [], _ => some []
  | .lit c :: ts, a => (renderItems ts a).map (fun r => c :: r)
  | .lineRef :: ts, a =>
    match a.Lines[0]? with
    | some s => (renderItems ts a).map (fun r => s ++ r)
    | none => none
  | .xRef n :: ts, a =>
    match a.Xs[n]? with
    | some s => (renderItems ts a).map (fun r => s ++ r)
    | none => none

/-! ## Command generation and dispatch (main.go lines 65-120) -/

/-- The command-line options that influence generation and orchestration
(main.go lines 27-36); the separator mode is carried separately as the
optional split function of the compiled `-s` regex. -/
structure Params where
  nlines : Nat
  verbose : Bool
  dryRun : Bool
  continueOnError : Bool
deriving DecidableEq

/-- The observable effects of the generator goroutine: commands sent on
the channel to the execution engine, bytes printed to stdout (dry-run),
bytes printed to stderr (verbose), and whether a `check`/`log.Fatal`
aborted the process (a fatal render error). -/
structure GenOut where
  sent : List (List Char)
  dryOut : List Char
  errOut : List Char
  fatal : Bool
deriving DecidableEq

/-- No observable effect. -/
def GenOut.zero : GenOut := ⟨[], [], [], false⟩

/-- `log.Fatal`: the process dies; nothing further is observed. -/
def fatalStop : GenOut := ⟨[], [], [], true⟩

/-- Sequencing of effects: once a fatal abort happens nothing later is
observed. -/
def GenOut.seq (a b : GenOut) : GenOut :=
  if a.fatal then a
  else ⟨a.sent ++ b.sent, a.dryOut ++ b.dryOut, a.errOut ++ b.errOut, b.fatal⟩

/-- The stderr text `fmt.Fprintf(os.Stderr, "command: %s\n", cmd)`
(main.go line 67). -/
def verboseMsg (cmd : List Char) : List Char :=
  ['c', 'o', 'm', 'm', 'a', 'n', 'd', ':', ' '] ++ cmd ++ ['\n']

/-- `handleCommand` (main.go lines 65-74): echo to stderr when verbose;
in dry-run print the command to stdout followed by a newline and do not
forward it; otherwise forward it on the channel. -/
def handleCommand (args : Params) (cmd : List Char) : GenOut :=
  { sent := if args.dryRun then [] else [cmd]
    dryOut := if args.dryRun then cmd ++ ['\n'] else []
    errOut := if args.verbose then verboseMsg cmd else []
    fatal := false }

/-- The generator goroutine body (main.go lines 85-118), processing the
framed input lines one at a time.  `buf` is the `lines` batch buffer.  In
separator mode each line is split and rendered with `Lines=[line]`,
`Xs=tokens`; in count mode the line is appended to the buffer, and a full
buffer is rendered with `Lines=Xs=buffer`.  The `len(lines)==args.Nlines`
test runs in both modes; when it fires in the same iteration as a
separator-mode emit, the shared `bytes.Buffer` is not reset in between, so
the second emitted string is the concatenation of both renders.  A render
error hits `check` and aborts the process.  After end of input a non-empty
buffer is rendered and emitted once. -/
def genLoop (args : Params) (tmpl : List TmplItem)
    (sepSplit : Option (List Char → List (List Char))) :
    List (List Char) → List (List Char) → GenOut
  | buf, [] =>
    if buf.isEmpty then GenOut.zero
    else
      match renderItems tmpl ⟨buf, buf⟩ with
      | none => fatalStop
      | some cmd => handleCommand args cmd
  | buf, l :: rest =>
    match sepSplit with
    | some sp =>
      match renderItems tmpl ⟨[l], sp l⟩ with
      | none => fatalStop
      | some c1 =>
        let w1 := handleCommand args c1
        if buf.length = args.nlines then
          match renderItems tmpl ⟨buf, buf⟩ with
          | none => GenOut.seq w1 fatalStop
          | some c2 =>
            GenOut.seq w1 (GenOut.seq (handleCommand args (c1 ++ c2)) (genLoop args tmpl sepSplit [] rest))
        else GenOut.seq w1 (genLoop args tmpl sepSplit buf rest)
    | none =>
      let buf2 := buf ++ [l]
      if buf2.length = args.nlines then
        match renderItems tmpl ⟨buf2, buf2⟩ with
        | none => fatalStop
        | some cmd => GenOut.seq (handleCommand args cmd) (genLoop args tmpl sepSplit [] rest)
      else genLoop args tmpl sepSplit buf2 rest

/-- `genCommands` (main.go lines 76-120): frame the input into lines and
run the generator loop with an empty batch buffer. -/
def genCommands (args : Params) (tmpl : List TmplItem)
    (sepSplit : Option (List Char → List (List Char))) (input : List Char) : GenOut :=
  genLoop args tmpl sepSplit [] (getLines input)

/-- Reference batching function: the batches the count-mode loop forms
from its input lines (full batches of `k`, plus a final partial one). -/
def batchAux (k : Nat) : List (List Char) → List (List Char) → List (List (List Char))
  | buf, [] => if buf.isEmpty then [] else [buf]
  | buf, l :: rest =>
    let buf2 := buf ++ [l]
    if buf2.length = k then buf2 :: batchAux k [] rest else batchAux k buf2 rest

/-- The batches formed from `lines` with batch size `k`. -/
def batchesOf (k : Nat) (lines : List (List Char)) : List (List (List Char)) :=
  batchAux k [] lines

/-- Rendering one count-mode batch: `Lines` and `Xs` are the same
sequence. -/
def renderBatch (tmpl : List TmplItem) (b : List (List Char)) : Option (List Char) :=
  renderItems tmpl ⟨b, b⟩

/-- Rendering one separator-mode line: `Lines=[line]`, `Xs = split`. -/
def sepRender (tmpl : List TmplItem) (sp : List Char → List (List Char))
    (l : List Char) : Option (List Char) :=
  renderItems tmpl ⟨[l], sp l⟩

/-- Reference emission: render units in order, emitting the rendered
commands, stopping with a fatal flag at the first render failure. -/
def emitUntilFatal {α : Type} (f : α → Option (List Char)) :
    List α → List (List Char) × Bool
  | [] => ([], false)
  | x :: xs =>
    match f x with
    | none => ([], true)
    | some c =>
      let r := emitUntilFatal f xs
      (c :: r.1, r.2)

/-- One rendered command per line on stdout: the dry-run output format. -/
def joinLines (cmds : List (List Char)) : List Char :=
  (cmds.map (fun c => c ++ ['\n'])).flatten

/-! ## The template compiler (main.go lines 153-163)

`makeCommandTmpl` first replaces every brace pair with the text of an
`index .Lines 0` action, then rewrites every token of an opening brace,
one or more digits, and a closing brace into an `index .Xs <digits>`
action, and finally hands the rewritten string to `template.Parse`. -/

/-- The replacement text main.go line 154 substitutes for a brace pair:
the `index .Lines 0` action in double braces. -/
def linesAction : List Char :=
  ['{', '{', 'i', 'n', 'd', 'e', 'x', ' ', '.', 'L', 'i', 'n', 'e', 's', ' ', '0', '}', '}']

/-- The replacement text main.go lines 156-158 substitute for an indexed
token with digit text `ds` (the digits are carried verbatim). -/
def xsAction (ds : List Char) : List Char :=
  ['{', '{', 'i', 'n', 'd', 'e', 'x', ' ', '.', 'X', 's', ' '] ++ ds ++ ['}', '}']

/-- main.go line 154: `strings.Replace(cmd, pair, action, -1)` — replace
every non-overlapping brace pair, left to right.  `pending` records that
the previous character was an opening brace not yet consumed. -/
def rbGo (pending : Bool) : List Char → List Char
  | [] => if pending then ['{'] else []
  | c :: cs =>
    if pending then
      if c = '}' then linesAction ++ rbGo false cs
      else if c = '{' then '{' :: rbGo true cs
      else '{' :: c :: rbGo false cs
    else
      if c = '{' then rbGo true cs
      else c :: rbGo false cs

/-- The first rewriting stage of `makeCommandTmpl`. -/
def replaceBraces (s : List Char) : List Char := rbGo false s

/-- main.go lines 155-158: `ReplaceAllStringFunc` for the regex matching
an opening brace, one or more digits, and a closing brace (leftmost,
non-overlapping).  The state holds the digits (reversed) of a candidate
match in progress, `none` while scanning ordinary text. -/
def rdGo : Option (List Char) → List Char → List Char
  | none, [] => []
  | none, c :: cs => if c = '{' then rdGo (some []) cs else c :: rdGo none cs
  | some ds, [] => '{' :: ds.reverse
  | some ds, c :: cs =>
    if c = '}' then
      if ds.isEmpty then '{' :: '}' :: rdGo none cs
      else xsAction ds.reverse ++ rdGo none cs
    else if c.isDigit then rdGo (some (c :: ds)) cs
    else if c = '{' then ('{' :: ds.reverse) ++ rdGo (some []) cs
    else ('{' :: ds.reverse) ++ (c :: rdGo none cs)

/-- The second rewriting stage of `makeCommandTmpl`. -/
def replaceDigits (s : List Char) : List Char := rdGo none s

/-- The rewritten template text `v` of `makeCommandTmpl`
(main.go lines 153-158). -/
def makeCommandTmpl (cmd : List Char) : List Char := replaceDigits (replaceBraces cmd)

/-- The numeric value of a digit character. -/
def digitVal (c : Char) : Nat := c.toNat - '0'.toNat

/-- The verbatim decimal reading of a digit string — the index the claim
says an indexed token uses. -/
def decimalVal (ds : List Char) : Nat := ds.foldl (fun a c => 10 * a + digitVal c) 0

/-- Go integer-literal parsing as text/template applies it to the digit
text of an `index .Xs` action (`strconv.ParseInt` with base 0): a lone
`0` is zero, a leading `0` followed by more digits makes the literal
octal (a digit 8 or 9 in it is then invalid), and otherwise the digits
are read as decimal.  Literals beyond the int64 range are not modelled;
an invalid literal makes the compilation fail fatally, as the whole
template is rejected by `check`. -/
def goIntLit : List Char → Option Nat
  | [] => none
  | ['0'] => some 0
  | '0' :: rest =>
    if rest.all (fun c => c.isDigit && !(c == '8') && !(c == '9')) then
      some (rest.foldl (fun a c => 8 * a + digitVal c) 0)
    else none
  | ds =>
    if ds.all Char.isDigit then some (decimalVal ds) else none

/-- `template.Parse` scanner state: literal text, literal text right
after one opening brace, inside an action accumulating its body
(reversed), or inside an action right after one closing brace. -/
inductive ParseState where
  | norm
  | sawOpen
  | inAction (acc : List Char)
  | sawClose (acc : List Char)
deriving DecidableEq

/-- Interpret one completed action body.  The compiler only ever emits
`index .Lines 0` and `index .Xs <digits>` actions, so the model accepts
exactly those (reading the digits as a Go integer literal) and rejects
any other body, modelling `template.Parse`/`Execute` failing on template
text the compiler did not produce. -/
def actionOf (body : List Char) : Option TmplItem :=
  if body = ['i', 'n', 'd', 'e', 'x', ' ', '.', 'L', 'i', 'n', 'e', 's', ' ', '0'] then
    some TmplItem.lineRef
  else if body.take 10 = ['i', 'n', 'd', 'e', 'x', ' ', '.', 'X', 's', ' '] then
    (goIntLit (body.drop 10)).map TmplItem.xRef
  else none

/-- `template.New(v).Parse(v)` on the rewritten text: literal characters,
with a double opening brace starting an action that runs to the next
double closing brace; an unterminated action or an unrecognized body is a
parse failure (`check` then aborts compilation). -/
def parseGo : ParseState → List Char → Option (List TmplItem)
  | .norm, [] => some []
  | .norm, c :: cs =>
    if c = '{' then parseGo .sawOpen cs
    else (parseGo .norm cs).map (fun ts => TmplItem.lit c :: ts)
  | .sawOpen, [] => some [TmplItem.lit '{']
  | .sawOpen, c :: cs =>
    if c = '{' then parseGo (.inAction []) cs
    else (parseGo .norm cs).map (fun ts => TmplItem.lit '{' :: TmplItem.lit c :: ts)
  | .inAction _, [] => none
  | .inAction acc, c :: cs =>
    if c = '}' then parseGo (.sawClose acc) cs
    else parseGo (.inAction (c :: acc)) cs
  | .sawClose _, [] => none
  | .sawClose acc, c :: cs =>
    if c = '}' then
      match actionOf acc.reverse with
      | some item => (parseGo .norm cs).map (fun ts => item :: ts)
      | none => none
    else parseGo (.inAction (c :: '}' :: acc)) cs

/-- Parsing the rewritten template text. -/
def parseTmpl (s : List Char) : Option (List TmplItem) := parseGo .norm s

/-- The full compilation pipeline of `makeCommandTmpl` (main.go lines
153-163): rewrite, then parse; `none` models `check(err)` aborting. -/
def compileTmpl (cmd : List Char) : Option (List TmplItem) :=
  parseTmpl (makeCommandTmpl cmd)

/-- Compile a pattern and render it against a context. -/
def renderPattern (cmd : List Char) (a : TmplArgs) : Option (List Char) :=
  (compileTmpl cmd).bind (fun ts => renderItems ts a)

/-- A token of the original command pattern: the brace pair, an indexed
token with its digit text, or a plain character. -/
inductive PatTok where
  | line
  | x (ds : List Char)
  | ch (c : Char)
deriving DecidableEq

/-- The single left-to-right token scan of a pattern that the two
rewrites of `makeCommandTmpl` jointly perform: a brace pair is the
whole-line token, an opening brace followed by one or more digits and a
closing brace is an indexed token, everything else is literal.  The
state mirrors `rdGo`'s candidate digits. -/
def patToksGo : Option (List Char) → List Char → List PatTok
  | none, [] => []
  | none, c :: cs =>
    if c = '{' then patToksGo (some []) cs else PatTok.ch c :: patToksGo none cs
  | some ds, [] => PatTok.ch '{' :: ds.reverse.map PatTok.ch
  | some ds, c :: cs =>
    if c = '}' then
      if ds.isEmpty then PatTok.line :: patToksGo none cs
      else PatTok.x ds.reverse :: patToksGo none cs
    else if c.isDigit then patToksGo (some (c :: ds)) cs
    else if c = '{' then
      PatTok.ch '{' :: ds.reverse.map PatTok.ch ++ patToksGo (some []) cs
    else PatTok.ch '{' :: ds.reverse.map PatTok.ch ++ (PatTok.ch c :: patToksGo none cs)

/-- The token decomposition of a command pattern. -/
def patternTokens (cmd : List Char) : List PatTok := patToksGo none cmd

/-- The replacement text a token contributes to the rewritten template. -/
def flattenTok : PatTok → List Char
  | .line => linesAction
  | .x ds => xsAction ds
  | .ch c => [c]

/-- The rewritten template text of a token sequence. -/
def flattenToks (ts : List PatTok) : List Char := (ts.map flattenTok).flatten

/-- Well-formedness of a token: an indexed token carries one or more
digits (as the scanner guarantees). -/
def tokWf : PatTok → Bool
  | .x ds => !ds.isEmpty && ds.all Char.isDigit
  | _ => true

/-- Well-formedness of a token sequence. -/
def toksWf (ts : List PatTok) : Bool := ts.all tokWf

/-- Whether a token's replacement text starts with an opening brace. -/
def startsBrace : PatTok → Bool
  | .line => true
  | .x _ => true
  | .ch c => c = '{'

/-- A token sequence whose rewritten text contains no stray double
opening brace: no literal opening brace directly followed by a token
whose replacement starts with an opening brace.  Patterns violating this
smuggle raw template-action syntax past the rewrites. -/
def okSeq : List PatTok → Bool
  | [] => true
  | [_] => true
  | t1 :: t2 :: ts =>
    (if t1 = PatTok.ch '{' then !startsBrace t2 else true) && okSeq (t2 :: ts)

/-- The per-token template semantics with compiled items. -/
def itemsOf : List PatTok → Option (List TmplItem)
  | [] => some []
  | .line :: ts => (itemsOf ts).map (fun l => TmplItem.lineRef :: l)
  | .x ds :: ts =>
    (goIntLit ds).bind (fun n => (itemsOf ts).map (fun l => TmplItem.xRef n :: l))
  | .ch c :: ts => (itemsOf ts).map (fun l => TmplItem.lit c :: l)

/-- Direct per-token substitution with Go integer-literal indices: the
amended reading of the claim (a brace pair yields `Lines[0]`, an indexed
token yields the `Xs` element at the Go-literal value of its digits,
every other character is emitted verbatim). -/
def specRenderGo : List PatTok → TmplArgs → Option (List Char)
  | [], _ => some []
  | .line :: ts, a =>
    match a.Lines[0]? with
    | some s => (specRenderGo ts a).map (fun r => s ++ r)
    | none => none
  | .x ds :: ts, a =>
    (goIntLit ds).bind (fun n =>
      match a.Xs[n]? with
      | some s => (specRenderGo ts a).map (fun r => s ++ r)
      | none => none)
  | .ch c :: ts, a => (specRenderGo ts a).map (fun r => c :: r)

/-- Direct per-token substitution as the claim literally states it: the
index of an indexed token is the verbatim decimal value of its digits. -/
def specRenderDecimal : List PatTok → TmplArgs → Option (List Char)
  | [], _ => some []
  | .line :: ts, a =>
    match a.Lines[0]? with
    | some s => (specRenderDecimal ts a).map (fun r => s ++ r)
    | none => none
  | .x ds :: ts, a =>
    match a.Xs[decimalVal ds]? with
    | some s => (specRenderDecimal ts a).map (fun r => s ++ r)
    | none => none
  | .ch c :: ts, a => (specRenderDecimal ts a).map (fun r => c :: r)

theorem joinOutputs_cons (r : GoResult) (rs : List GoResult) :
    joinOutputs (r :: rs) = r.output ++ joinOutputs rs := by
  simp [joinOutputs]

theorem goMax_eq_max (a b : Nat) : goMax a b = max a b := by
  unfold goMax
  split <;> omega

theorem stepExit_eq_max (cur : Nat) (r : GoResult) :
    stepExit cur r = max cur r.exitCode := by
  unfold stepExit
  by_cases h : r.exitCode = 0
  · simp [h]
  · simp [h, goMax_eq_max]

theorem runLoop_exitCode (c : Bool) (rs : List GoResult) (st : RunState) :
    (runLoop c rs st).exitCode = (receivedResults c rs).foldl stepExit st.exitCode := by
  induction rs generalizing st with
  | nil => cases c <;> simp [runLoop, receivedResults]
  | cons r rs ih =>
    by_cases h : r.exitCode = 0
    · cases c <;>
        simp [runLoop, receivedResults, h, ih, stepExit]
    · cases c
      · simp [runLoop, receivedResults, h, closeCancel, stepExit]
        split <;> simp [goMax]
      · simp [runLoop, receivedResults, h, ih, stepExit]

theorem runLoop_out (c : Bool) (rs : List GoResult) (st : RunState) :
    (runLoop c rs st).out = st.out ++ joinOutputs (copiedResults c rs) := by
  induction rs generalizing st with
  | nil => cases c <;> simp [runLoop, copiedResults, joinOutputs]
  | cons r rs ih =>
    by_cases h : r.exitCode = 0
    · cases c <;>
        simp [runLoop, h, ih, copiedResults, joinOutputs_cons, List.takeWhile_cons,
          List.append_assoc]
    · cases c
      · simp [runLoop, h, closeCancel, copiedResults, joinOutputs, List.takeWhile_cons,
          apply_ite RunState.out]
      · simp [runLoop, h, ih, copiedResults, joinOutputs_cons, List.takeWhile_cons,
          List.append_assoc]

theorem foldl_stepExit_eq (rs : List GoResult) (a : Nat) :
    rs.foldl stepExit a = (rs.map GoResult.exitCode).foldl max a := by
  induction rs generalizing a with
  | nil => rfl
  | cons r rs ih => simp [List.foldl, stepExit_eq_max, ih]

/-- C1: the claim says closing the cancellation signal is idempotent and
that the teardown close after a failure-triggered close completes without
abnormal termination.  The code violates this: `close(cancel)` on the
failure path (line 144) followed by the deferred `close(cancel)` (line
138) is a double close of a Go channel, which panics.  A single failing
result with continue-on-error disabled makes the run panic; an
all-success run or a continue-on-error run does not. -/
theorem c1_cancel_double_close_panics :
    (run false [⟨1, []⟩]).panicked = true ∧
    (run false [⟨0, []⟩]).panicked = false ∧
    (run true [⟨1, []⟩]).panicked = false := by decide

/-- C2 counterexample: the result that triggers cancellation does not have
its output copied: the `break` (line 145) precedes the `io.Copy` (line
148).  With one failing result carrying non-empty output, the process-wide
output stream stays empty. -/
theorem c2_triggering_output_not_copied :
    (run false [⟨2, ['h', 'i']⟩]).out = [] ∧ (['h', 'i'] : List Char) ≠ [] := by
  decide

/-- C2 amended: every received result has its output copied in full, in
order, except the result that triggers cancellation (non-zero status with
continue-on-error disabled), whose output is not copied. -/
theorem c2_output_copied_amended (c : Bool) (rs : List GoResult) :
    (run c rs).out = joinOutputs (copiedResults c rs) := by
  have h := runLoop_out c rs initState
  unfold run closeCancel
  split <;> simpa [initState] using h

/-- C3: the claim says the process's final exit status equals the highest
observed exit status on the cancellation path as well.  The code violates
this: on that path the deferred double close panics, so the Go runtime
exits with status 2 and `os.Exit(ExitCode)` is never reached.  With a
single result of status 3 and continue-on-error disabled, `ExitCode` is 3
but the process exits 2; the all-success and continue-on-error paths do
exit with the maximum. -/
theorem c3_exit_status_panic_bug :
    (run false [⟨3, []⟩]).exitCode = 3 ∧
    mainExit (run false [⟨3, []⟩]) = 2 ∧
    mainExit (run true [⟨3, []⟩]) = 3 ∧
    mainExit (run true [⟨3, []⟩, ⟨5, ['x']⟩, ⟨0, []⟩]) = 5 ∧
    mainExit (run false [⟨0, []⟩, ⟨0, []⟩]) = 0 := by decide

/-- C9: the aggregated exit status starts at zero, is monotonically
non-decreasing as results arrive, and after any prefix of the received
results it equals the maximum of the exit statuses observed in that
prefix; and the exit code computed by `run` is exactly this fold over the
received results. -/
theorem c9_exitcode_monotone_max (c : Bool) (rs : List GoResult) (n : Nat) :
    exitCodeFold [] = 0 ∧
    (run c rs).exitCode = exitCodeFold (receivedResults c rs) ∧
    exitCodeFold (rs.take n) ≤ exitCodeFold (rs.take (n + 1)) ∧
    exitCodeFold rs = (rs.map GoResult.exitCode).foldl max 0 := by
  refine ⟨rfl, ?_, ?_, foldl_stepExit_eq rs 0⟩
  · have h := runLoop_exitCode c rs initState
    unfold run closeCancel
    split <;> simpa [initState, exitCodeFold] using h
  · rw [exitCodeFold, exitCodeFold, List.take_succ, List.foldl_append]
    cases h : rs[n]? with
    | none => simp
    | some r =>
      simp only [Option.toList, List.foldl, stepExit_eq_max]
      exact le_max_left _ r.exitCode

theorem splitChunksAux_no_nl (s : List Char) (hs : '\n' ∉ s) (hs0 : s ≠ [])
    (acc : List Char) : splitChunksAux acc s = [acc.reverse ++ s] := by
  induction s generalizing acc with
  | nil => exact absurd rfl hs0
  | cons c cs ih =>
    simp only [List.mem_cons, not_or] at hs
    obtain ⟨hc, hcs⟩ := hs
    rw [splitChunksAux, if_neg (fun h => hc h.symm)]
    cases cs with
    | nil => simp [splitChunksAux]
    | cons c2 cs2 =>
      rw [ih hcs (by simp)]
      simp

theorem splitChunksAux_term (l : List Char) (hl : '\n' ∉ l) (acc : List Char) :
    splitChunksAux acc (l ++ ['\n']) = [acc.reverse ++ l ++ ['\n']] := by
  induction l generalizing acc with
  | nil => simp [splitChunksAux]
  | cons c cs ih =>
    simp only [List.mem_cons, not_or] at hl
    obtain ⟨hc, hcs⟩ := hl
    rw [List.cons_append, splitChunksAux, if_neg (fun h => hc h.symm), ih hcs]
    simp

theorem splitChunksAux_cons (acc : List Char) (c : Char) (cs : List Char) :
    splitChunksAux acc (c :: cs) =
      if c = '\n' then (acc.reverse ++ ['\n']) :: splitChunksAux [] cs
      else splitChunksAux (c :: acc) cs := rfl

theorem splitChunksAux_append_nl (pre : List Char) (hpre : pre.getLast? = some '\n')
    (x : List Char) (acc : List Char) :
    splitChunksAux acc (pre ++ x) = splitChunksAux acc pre ++ splitChunksAux [] x := by
  induction pre generalizing acc with
  | nil => simp at hpre
  | cons c cs ih =>
    cases cs with
    | nil =>
      have hc : c = '\n' := by simpa using hpre
      subst hc
      simp [splitChunksAux]
    | cons c2 cs2 =>
      have hlast : (c2 :: cs2).getLast? = some '\n' := by
        rwa [List.getLast?_cons_cons] at hpre
      rw [List.cons_append, splitChunksAux_cons acc c ((c2 :: cs2) ++ x),
        splitChunksAux_cons acc c (c2 :: cs2)]
      by_cases hc : c = '\n'
      · rw [if_pos hc, if_pos hc, ih hlast [], List.cons_append]
      · rw [if_neg hc, if_neg hc, ih hlast (c :: acc)]

theorem replaceCrLf_one (c : Char) :
    replaceCrLf [c] = if c = '\n' then [] else [c] := rfl

theorem replaceCrLf_cons₂ (c c2 : Char) (cs : List Char) :
    replaceCrLf (c :: c2 :: cs) =
      if c = '\r' ∧ c2 = '\n' then replaceCrLf cs
      else if c = '\n' then replaceCrLf (c2 :: cs)
      else c :: replaceCrLf (c2 :: cs) := rfl

theorem dropTrailingCr_cons₂ (c c2 : Char) (cs : List Char) :
    dropTrailingCr (c :: c2 :: cs) = c :: dropTrailingCr (c2 :: cs) := rfl

theorem replaceCrLf_no_nl (s : List Char) (hs : '\n' ∉ s) : replaceCrLf s = s := by
  induction s with
  | nil => rfl
  | cons c cs ih =>
    simp only [List.mem_cons, not_or] at hs
    obtain ⟨hc, hcs⟩ := hs
    have hc' : ¬c = '\n' := fun h => hc h.symm
    cases cs with
    | nil => simp [replaceCrLf_one, hc']
    | cons c2 cs2 =>
      have hc2 : ¬c2 = '\n' := by
        intro h
        exact absurd (h ▸ List.mem_cons_self c2 cs2) hcs
      rw [replaceCrLf_cons₂, if_neg (by rintro ⟨-, h⟩; exact hc2 h),
        if_neg hc', ih hcs]

theorem replaceCrLf_terminated (l : List Char) (hl : '\n' ∉ l) :
    replaceCrLf (l ++ ['\n']) = dropTrailingCr l := by
  induction l with
  | nil => decide
  | cons c cs ih =>
    simp only [List.mem_cons, not_or] at hl
    obtain ⟨hc, hcs⟩ := hl
    cases cs with
    | nil =>
      by_cases hr : c = '\r'
      · subst hr
        decide
      · rw [List.cons_append, List.nil_append, replaceCrLf_cons₂,
          if_neg (by rintro ⟨h, -⟩; exact hr h), if_neg (fun h => hc h.symm),
          replaceCrLf_one, if_pos rfl]
        simp [dropTrailingCr, hr]
    | cons c2 cs2 =>
      have hc2 : ¬c2 = '\n' := by
        intro h
        exact absurd (h ▸ List.mem_cons_self c2 cs2) hcs
      rw [List.cons_append,
        show ((c2 :: cs2) ++ ['\n'] : List Char) = c2 :: (cs2 ++ ['\n']) from rfl,
        replaceCrLf_cons₂, if_neg (by rintro ⟨-, h⟩; exact hc2 h),
        if_neg (fun h => hc h.symm)]
      rw [show (c2 :: cs2) ++ ['\n'] = c2 :: (cs2 ++ ['\n']) from rfl] at ih
      rw [ih hcs, dropTrailingCr_cons₂]

theorem getLines_append_terminated (pre l : List Char)
    (hpre : pre = [] ∨ pre.getLast? = some '\n') (hl : '\n' ∉ l) :
    getLines (pre ++ (l ++ ['\n'])) = getLines pre ++ [dropTrailingCr l] := by
  have hx : readChunks (l ++ ['\n']) = [l ++ ['\n']] := by
    simpa using splitChunksAux_term l hl []
  rcases hpre with h | h
  · subst h
    simp only [List.nil_append, getLines]
    rw [hx]
    simp [replaceCrLf_terminated l hl, readChunks, splitChunksAux]
  · have h2 := splitChunksAux_append_nl pre h (l ++ ['\n']) []
    simp only [getLines, readChunks]
    rw [h2]
    have hx' : splitChunksAux [] (l ++ ['\n']) = [l ++ ['\n']] := hx
    rw [List.map_append, hx']
    simp [replaceCrLf_terminated l hl]

theorem getLines_append_final (pre s : List Char)
    (hpre : pre = [] ∨ pre.getLast? = some '\n') (hs : '\n' ∉ s) (hs0 : s ≠ []) :
    getLines (pre ++ s) = getLines pre ++ [s] := by
  have hx : readChunks s = [s] := by
    simpa using splitChunksAux_no_nl s hs hs0 []
  rcases hpre with h | h
  · subst h
    simp only [List.nil_append, getLines]
    rw [hx]
    simp [replaceCrLf_no_nl s hs, readChunks, splitChunksAux]
  · have h2 := splitChunksAux_append_nl pre h s []
    simp only [getLines, readChunks]
    rw [h2]
    have hx' : splitChunksAux [] s = [s] := hx
    rw [List.map_append, hx']
    simp [replaceCrLf_no_nl s hs]

/-- C10 counterexample: the claim says a trailing carriage return is
always stripped before the line enters batching.  For the input `"a\r"`
(end of input with no final newline) the `\r?\n` replacement finds no
newline, so the line enters batching as `"a\r"` with the carriage return
retained, not as `"a"`. -/
theorem c10_trailing_cr_kept_counterexample :
    getLines ['a', '\r'] = [['a', '\r']] ∧ [['a', '\r']] ≠ [['a']] := by decide

/-- C10 amended: for every line terminated by the newline delimiter, a
carriage return immediately preceding that newline is stripped before the
line enters batching, and a final line lacking a trailing newline is still
treated as a complete line — but such an unterminated final line keeps a
trailing carriage return, since the `\r?\n` replacement only removes a
carriage return that is followed by a newline. -/
theorem c10_line_framing_amended (pre l s : List Char)
    (hpre : pre = [] ∨ pre.getLast? = some '\n') (hl : '\n' ∉ l)
    (hs : '\n' ∉ s) (hs0 : s ≠ []) :
    getLines (pre ++ (l ++ ['\n'])) = getLines pre ++ [dropTrailingCr l] ∧
    getLines (pre ++ s) = getLines pre ++ [s] :=
  ⟨getLines_append_terminated pre l hpre hl, getLines_append_final pre s hpre hs hs0⟩

/-- Witness for the amended C10 at a concrete input: after the terminated
line `"x\n"`, the terminated line `"a\r\n"` enters batching as `"a"`, and
the unterminated final line `"b\r"` enters batching verbatim. -/
theorem c10_line_framing_amended_witness :
    getLines (['x', '\n'] ++ (['a', '\r'] ++ ['\n'])) =
      getLines ['x', '\n'] ++ [dropTrailingCr ['a', '\r']] ∧
    getLines (['x', '\n'] ++ ['b', '\r']) = getLines ['x', '\n'] ++ [['b', '\r']] :=
  c10_line_framing_amended ['x', '\n'] ['a', '\r'] ['b', '\r']
    (Or.inr (by decide)) (by decide) (by decide) (by decide)

theorem genLoop_nil (args : Params) (tmpl : List TmplItem)
    (sp? : Option (List Char → List (List Char))) (buf : List (List Char)) :
    genLoop args tmpl sp? buf [] =
      (if buf.isEmpty then GenOut.zero
       else
         match renderItems tmpl ⟨buf, buf⟩ with
         | none => fatalStop
         | some cmd => handleCommand args cmd) := rfl

theorem genLoop_cons_count (args : Params) (tmpl : List TmplItem)
    (buf : List (List Char)) (l : List Char) (rest : List (List Char)) :
    genLoop args tmpl none buf (l :: rest) =
      (if (buf ++ [l]).length = args.nlines then
         match renderItems tmpl ⟨buf ++ [l], buf ++ [l]⟩ with
         | none => fatalStop
         | some cmd => GenOut.seq (handleCommand args cmd) (genLoop args tmpl none [] rest)
       else genLoop args tmpl none (buf ++ [l]) rest) := rfl

theorem genLoop_cons_sep (args : Params) (tmpl : List TmplItem)
    (sp : List Char → List (List Char)) (buf : List (List Char)) (l : List Char)
    (rest : List (List Char)) :
    genLoop args tmpl (some sp) buf (l :: rest) =
      (match renderItems tmpl ⟨[l], sp l⟩ with
       | none => fatalStop
       | some c1 =>
         if buf.length = args.nlines then
           match renderItems tmpl ⟨buf, buf⟩ with
           | none => GenOut.seq (handleCommand args c1) fatalStop
           | some c2 =>
             GenOut.seq (handleCommand args c1)
               (GenOut.seq (handleCommand args (c1 ++ c2))
                 (genLoop args tmpl (some sp) [] rest))
         else GenOut.seq (handleCommand args c1) (genLoop args tmpl (some sp) buf rest)) := rfl

theorem batchAux_cons (k : Nat) (buf : List (List Char)) (l : List Char)
    (rest : List (List Char)) :
    batchAux k buf (l :: rest) =
      (if (buf ++ [l]).length = k then (buf ++ [l]) :: batchAux k [] rest
       else batchAux k (buf ++ [l]) rest) := rfl

theorem joinLines_cons (c : List Char) (cs : List (List Char)) :
    joinLines (c :: cs) = (c ++ ['\n']) ++ joinLines cs := by
  simp [joinLines]

theorem genLoop_count_spec (args : Params) (hdry : args.dryRun = false)
    (tmpl : List TmplItem) :
    ∀ (rest buf : List (List Char)),
      ((genLoop args tmpl none buf rest).sent, (genLoop args tmpl none buf rest).fatal) =
        emitUntilFatal (renderBatch tmpl) (batchAux args.nlines buf rest) := by
  intro rest
  induction rest with
  | nil =>
    intro buf
    by_cases hb : buf.isEmpty
    · simp [genLoop_nil, batchAux, hb, emitUntilFatal, GenOut.zero]
    · cases hr : renderItems tmpl ⟨buf, buf⟩ with
      | none =>
        simp [genLoop_nil, batchAux, hb, hr, emitUntilFatal, fatalStop, renderBatch]
      | some cmd =>
        simp [genLoop_nil, batchAux, hb, hr, emitUntilFatal, renderBatch,
          handleCommand, hdry]
  | cons l rest ih =>
    intro buf
    rw [genLoop_cons_count, batchAux_cons]
    by_cases hf : (buf ++ [l]).length = args.nlines
    · rw [if_pos hf, if_pos hf]
      cases hr : renderItems tmpl ⟨buf ++ [l], buf ++ [l]⟩ with
      | none => simp [emitUntilFatal, renderBatch, hr, fatalStop]
      | some cmd =>
        have h1 := congrArg Prod.fst (ih [])
        have h2 := congrArg Prod.snd (ih [])
        simp only at h1 h2
        simp [emitUntilFatal, renderBatch, hr, GenOut.seq, handleCommand, hdry, h1, h2]
    · rw [if_neg hf, if_neg hf]
      exact ih (buf ++ [l])

theorem genLoop_sep_spec (args : Params) (hdry : args.dryRun = false)
    (hk : args.nlines ≠ 0) (tmpl : List TmplItem)
    (sp : List Char → List (List Char)) :
    ∀ lines : List (List Char),
      ((genLoop args tmpl (some sp) [] lines).sent,
        (genLoop args tmpl (some sp) [] lines).fatal) =
        emitUntilFatal (sepRender tmpl sp) lines := by
  intro lines
  induction lines with
  | nil => simp [genLoop_nil, emitUntilFatal, GenOut.zero]
  | cons l rest ih =>
    rw [genLoop_cons_sep]
    cases hr : renderItems tmpl ⟨[l], sp l⟩ with
    | none => simp [emitUntilFatal, sepRender, hr, fatalStop]
    | some c1 =>
      have hb : ¬(0 = args.nlines) := fun h => hk h.symm
      have h1 := congrArg Prod.fst ih
      have h2 := congrArg Prod.snd ih
      simp only at h1 h2
      simp [hb, emitUntilFatal, sepRender, hr, GenOut.seq, handleCommand, hdry, h1, h2]

theorem genLoop_dry_spec (k : Nat) (v co : Bool) (tmpl : List TmplItem)
    (sp? : Option (List Char → List (List Char))) :
    ∀ (rest buf : List (List Char)),
      (genLoop ⟨k, v, true, co⟩ tmpl sp? buf rest).sent = [] ∧
      (genLoop ⟨k, v, true, co⟩ tmpl sp? buf rest).dryOut =
        joinLines ((genLoop ⟨k, v, false, co⟩ tmpl sp? buf rest).sent) := by
  intro rest
  induction rest with
  | nil =>
    intro buf
    by_cases hb : buf.isEmpty
    · simp [genLoop_nil, hb, GenOut.zero, joinLines]
    · cases hr : renderItems tmpl ⟨buf, buf⟩ with
      | none => simp [genLoop_nil, hb, hr, fatalStop, joinLines]
      | some cmd => simp [genLoop_nil, hb, hr, handleCommand, joinLines]
  | cons l rest ih =>
    intro buf
    cases sp? with
    | none =>
      rw [genLoop_cons_count, genLoop_cons_count]
      by_cases hf : (buf ++ [l]).length = k
      · cases hr : renderItems tmpl ⟨buf ++ [l], buf ++ [l]⟩ with
        | none => simp [hf, hr, fatalStop, joinLines]
        | some cmd =>
          obtain ⟨h1, h2⟩ := ih []
          simp [hf, hr, GenOut.seq, handleCommand, joinLines_cons, h1, h2]
      · obtain ⟨h1, h2⟩ := ih (buf ++ [l])
        have hf' : ¬(buf.length + 1 = k) := by simpa using hf
        simp [hf', h1, h2]
    | some sp =>
      rw [genLoop_cons_sep, genLoop_cons_sep]
      cases hr : renderItems tmpl ⟨[l], sp l⟩ with
      | none => simp [hr, fatalStop, joinLines]
      | some c1 =>
        by_cases hf : buf.length = k
        · cases hr2 : renderItems tmpl ⟨buf, buf⟩ with
          | none =>
            simp [hr, hr2, hf, GenOut.seq, handleCommand, fatalStop, joinLines_cons,
              joinLines]
          | some c2 =>
            obtain ⟨h1, h2⟩ := ih []
            simp [hr, hr2, hf, GenOut.seq, handleCommand, joinLines_cons, h1, h2]
        · obtain ⟨h1, h2⟩ := ih buf
          simp [hr, hf, GenOut.seq, handleCommand, joinLines_cons, h1, h2]

theorem emitUntilFatal_all_some {α : Type} (f : α → Option (List Char)) (xs : List α)
    (h : ∀ x ∈ xs, (f x).isSome) :
    emitUntilFatal f xs = (xs.map (fun x => (f x).getD []), false) := by
  induction xs with
  | nil => rfl
  | cons x xs ih =>
    have hx := h x (List.mem_cons_self x xs)
    cases hfx : f x with
    | none => rw [hfx] at hx; simp at hx
    | some c =>
      simp [emitUntilFatal, hfx, ih (fun y hy => h y (List.mem_cons_of_mem x hy))]

theorem emitUntilFatal_length {α : Type} (f : α → Option (List Char)) (xs : List α)
    (h : (emitUntilFatal f xs).2 = false) :
    (emitUntilFatal f xs).1.length = xs.length := by
  induction xs with
  | nil => rfl
  | cons x xs ih =>
    cases hfx : f x with
    | none => simp [emitUntilFatal, hfx] at h
    | some c =>
      simp only [emitUntilFatal, hfx] at h ⊢
      simp [ih h]

theorem emitUntilFatal_first_fail {α : Type} (f : α → Option (List Char)) (xs : List α)
    (h : ∃ x ∈ xs, f x = none) :
    emitUntilFatal f xs =
      ((xs.takeWhile (fun x => (f x).isSome)).map (fun x => (f x).getD []), true) := by
  induction xs with
  | nil => simp at h
  | cons x xs ih =>
    cases hfx : f x with
    | none => simp [emitUntilFatal, hfx, List.takeWhile_cons]
    | some c =>
      obtain ⟨y, hy, hfy⟩ := h
      have hy' : y ∈ xs := by
        rcases List.mem_cons.mp hy with rfl | h2
        · rw [hfx] at hfy
          cases hfy
        · exact h2
      simp [emitUntilFatal, hfx, List.takeWhile_cons, ih ⟨y, hy', hfy⟩]

theorem batchAux_length (k : Nat) (hk : 1 ≤ k) :
    ∀ (rest buf : List (List Char)), buf.length < k →
      (batchAux k buf rest).length = (buf.length + rest.length + k - 1) / k := by
  intro rest
  induction rest with
  | nil =>
    intro buf hb
    cases buf with
    | nil =>
      simp [batchAux]
      exact (Nat.div_eq_of_lt (by omega)).symm
    | cons b bs =>
      rw [show batchAux k (b :: bs) [] = [b :: bs] from rfl]
      have hb1 : 1 ≤ (b :: bs).length := by simp
      have h1 : (b :: bs).length + ([] : List (List Char)).length + k - 1 =
          ((b :: bs).length - 1) + k := by
        simp only [List.length_nil]
        omega
      rw [h1, Nat.add_div_right _ (by omega), Nat.div_eq_of_lt (by omega)]
      simp
  | cons l rest ih =>
    intro buf hb
    rw [batchAux_cons]
    have h6 : (buf ++ [l]).length = buf.length + 1 := by simp
    by_cases hf : (buf ++ [l]).length = k
    · rw [if_pos hf]
      have hlen0 : ([] : List (List Char)).length < k := by
        simp only [List.length_nil]
        omega
      have hstep : ((buf ++ [l]) :: batchAux k [] rest).length =
          (batchAux k [] rest).length + 1 := rfl
      rw [hstep, ih [] hlen0]
      have h2 : buf.length + (l :: rest).length + k - 1 =
          (([] : List (List Char)).length + rest.length + k - 1) + k := by
        simp only [List.length_cons, List.length_nil]
        omega
      rw [h2, Nat.add_div_right _ (by omega)]
    · rw [if_neg hf]
      have hlen : (buf ++ [l]).length < k := by omega
      rw [ih (buf ++ [l]) hlen]
      have h7 : (buf ++ [l]).length + rest.length + k - 1 =
          buf.length + (l :: rest).length + k - 1 := by
        simp only [List.length_cons]
        omega
      rw [h7]

theorem batchAux_ne_nil (k : Nat) :
    ∀ (rest buf : List (List Char)), buf ≠ [] ∨ rest ≠ [] → batchAux k buf rest ≠ [] := by
  intro rest
  induction rest with
  | nil =>
    intro buf h
    rcases h with h | h
    · cases buf with
      | nil => exact absurd rfl h
      | cons b bs => simp [batchAux]
    · exact absurd rfl h
  | cons l rest ih =>
    intro buf _
    rw [batchAux_cons]
    by_cases hf : (buf ++ [l]).length = k
    · rw [if_pos hf]
      simp
    · rw [if_neg hf]
      exact ih (buf ++ [l]) (Or.inl (by simp))

theorem getLast?_cons_of_ne {α : Type} (a : α) (l : List α) (h : l ≠ []) :
    (a :: l).getLast? = l.getLast? := by
  cases l with
  | nil => exact absurd rfl h
  | cons b m => exact List.getLast?_cons_cons

theorem batchAux_getLast (k : Nat) (hk : 1 ≤ k) :
    ∀ (rest buf : List (List Char)), buf.length < k → (buf ≠ [] ∨ rest ≠ []) →
      ∃ b, (batchAux k buf rest).getLast? = some b ∧
        b.length = (if (buf.length + rest.length) % k = 0 then k
          else (buf.length + rest.length) % k) := by
  intro rest
  induction rest with
  | nil =>
    intro buf hb h
    rcases h with h | h
    · cases buf with
      | nil => exact absurd rfl h
      | cons b bs =>
        refine ⟨b :: bs, by simp [batchAux], ?_⟩
        have hmod : ((b :: bs).length + ([] : List (List Char)).length) % k =
            (b :: bs).length := by
          simp only [List.length_nil, Nat.add_zero]
          exact Nat.mod_eq_of_lt hb
        rw [hmod, if_neg (by simp only [List.length_cons]; omega)]
    · exact absurd rfl h
  | cons l rest ih =>
    intro buf hb _
    rw [batchAux_cons]
    have h6 : (buf ++ [l]).length = buf.length + 1 := by simp
    by_cases hf : (buf ++ [l]).length = k
    · rw [if_pos hf]
      rcases eq_or_ne rest [] with rfl | hr
      · refine ⟨buf ++ [l], by simp [batchAux], ?_⟩
        have h8 : buf.length + (l :: ([] : List (List Char))).length = k := by
          simp only [List.length_cons, List.length_nil]
          omega
        rw [h8, Nat.mod_self, if_pos rfl]
        omega
      · have hlen0 : ([] : List (List Char)).length < k := by
          simp only [List.length_nil]
          omega
        obtain ⟨b, hb1, hb2⟩ := ih [] hlen0 (Or.inr hr)
        refine ⟨b, ?_, ?_⟩
        · rw [getLast?_cons_of_ne _ _ (batchAux_ne_nil k rest [] (Or.inr hr))]
          exact hb1
        · rw [hb2]
          have h4 : buf.length + (l :: rest).length = rest.length + k := by
            simp only [List.length_cons]
            omega
          simp only [List.length_nil, Nat.zero_add, h4, Nat.add_mod_right]
    · rw [if_neg hf]
      have hlen : (buf ++ [l]).length < k := by omega
      obtain ⟨b, hb1, hb2⟩ := ih (buf ++ [l]) hlen (Or.inl (by simp))
      refine ⟨b, hb1, ?_⟩
      rw [hb2]
      have h5 : (buf ++ [l]).length + rest.length = buf.length + (l :: rest).length := by
        simp only [List.length_cons]
        omega
      rw [h5]

theorem renderItems_oob (tmpl : List TmplItem) (a : TmplArgs) (n : Nat)
    (hmem : TmplItem.xRef n ∈ tmpl) (hlen : a.Xs.length ≤ n) :
    renderItems tmpl a = none := by
  induction tmpl with
  | nil => simp at hmem
  | cons t ts ih =>
    rcases List.mem_cons.mp hmem with rfl | h
    · simp [renderItems, List.getElem?_eq_none hlen]
    · cases t with
      | lit c => simp [renderItems, ih h]
      | lineRef =>
        cases h0 : a.Lines[0]? with
        | none => simp [renderItems, h0]
        | some s => simp [renderItems, h0, ih h]
      | xRef m =>
        cases h0 : a.Xs[m]? with
        | none => simp [renderItems, h0]
        | some s => simp [renderItems, h0, ih h]

/-- C4: in count mode with batch size `k ≥ 1`, when no render error aborts
the run, the generator emits exactly `ceil(lineCount / k)` commands (in
`Nat` arithmetic, `(lineCount + k - 1) / k`), the batches it renders are
`batchesOf k lines` with the same count, and when the input is non-empty
the final batch holds `lineCount mod k` lines if that remainder is
non-zero, else `k` lines; the trailing partial batch is thus rendered and
emitted exactly once. -/
theorem c4_count_mode_batch_counts (k : Nat) (v c : Bool) (tmpl : List TmplItem)
    (lines : List (List Char)) (hk : 1 ≤ k)
    (hok : (genLoop ⟨k, v, false, c⟩ tmpl none [] lines).fatal = false) :
    (genLoop ⟨k, v, false, c⟩ tmpl none [] lines).sent.length = (lines.length + k - 1) / k ∧
    (batchesOf k lines).length = (lines.length + k - 1) / k ∧
    (lines ≠ [] → ∃ b, (batchesOf k lines).getLast? = some b ∧
      b.length = (if lines.length % k = 0 then k else lines.length % k)) := by
  have hspec := genLoop_count_spec ⟨k, v, false, c⟩ rfl tmpl lines []
  have hsent := congrArg Prod.fst hspec
  have hfat := congrArg Prod.snd hspec
  simp only at hsent hfat
  have hklen : ([] : List (List Char)).length < k := by
    simp only [List.length_nil]
    omega
  have hBL := batchAux_length k hk lines [] hklen
  simp only [List.length_nil, Nat.zero_add] at hBL
  refine ⟨?_, ?_, ?_⟩
  · rw [hsent, emitUntilFatal_length _ _ (by rw [← hfat]; exact hok)]
    exact hBL
  · exact hBL
  · intro hne
    obtain ⟨b, h1, h2⟩ := batchAux_getLast k hk lines [] hklen (Or.inr hne)
    refine ⟨b, h1, ?_⟩
    simpa using h2

/-- Witness for C4 at a concrete input: batch size 2 over three lines
yields two commands, and the final batch holds one line. -/
theorem c4_count_mode_batch_counts_witness :
    1 ≤ 2 ∧
    (genLoop ⟨2, false, false, false⟩ [TmplItem.lit 'x'] none []
      [['a'], ['b'], ['c']]).fatal = false ∧
    ((genLoop ⟨2, false, false, false⟩ [TmplItem.lit 'x'] none []
        [['a'], ['b'], ['c']]).sent.length = ([['a'], ['b'], ['c']].length + 2 - 1) / 2 ∧
      (batchesOf 2 [['a'], ['b'], ['c']]).length = ([['a'], ['b'], ['c']].length + 2 - 1) / 2 ∧
      ([['a'], ['b'], ['c']] ≠ ([] : List (List Char)) →
        ∃ b, (batchesOf 2 [['a'], ['b'], ['c']]).getLast? = some b ∧
          b.length = (if [['a'], ['b'], ['c']].length % 2 = 0 then 2
            else [['a'], ['b'], ['c']].length % 2))) :=
  ⟨by decide, by decide,
    c4_count_mode_batch_counts 2 false false [TmplItem.lit 'x'] [['a'], ['b'], ['c']]
      (by decide) (by decide)⟩

/-- C5: in separator mode (split function `sp` for the `-s` regex, with
the count-mode batch size left at a non-zero value, as configuration
validation guarantees), when every line renders successfully the generator
emits exactly one command per input line, in order, each rendered against
the context `Lines = [line]`, `Xs = sp line`; against that context the
whole-line placeholder resolves to the line itself regardless of the
split, and the indexed placeholder `N` resolves to token `N` of the
split. -/
theorem c5_separator_mode_context (k : Nat) (v c : Bool) (tmpl : List TmplItem)
    (sp : List Char → List (List Char)) (lines : List (List Char)) (hk : k ≠ 0)
    (hok : ∀ l ∈ lines, (sepRender tmpl sp l).isSome) :
    (genLoop ⟨k, v, false, c⟩ tmpl (some sp) [] lines).sent =
      lines.map (fun l => (sepRender tmpl sp l).getD []) ∧
    (genLoop ⟨k, v, false, c⟩ tmpl (some sp) [] lines).sent.length = lines.length ∧
    (∀ l : List Char, renderItems [TmplItem.lineRef] ⟨[l], sp l⟩ = some l) ∧
    (∀ (l : List Char) (n : Nat),
      renderItems [TmplItem.xRef n] ⟨[l], sp l⟩ = (sp l)[n]?) := by
  have hspec := genLoop_sep_spec ⟨k, v, false, c⟩ rfl hk tmpl sp lines
  have hsent := congrArg Prod.fst hspec
  simp only at hsent
  rw [emitUntilFatal_all_some _ _ hok] at hsent
  refine ⟨hsent, by rw [hsent]; simp, ?_, ?_⟩
  · intro l
    simp [renderItems]
  · intro l n
    cases h : (sp l)[n]? with
    | none => simp [renderItems, h]
    | some t => simp [renderItems, h]

/-- Witness for C5 at a concrete input: splitting `"a,b"` at the comma
and rendering the template compiled from a single `\x7b1\x7d`-style
indexed reference emits one command per line. -/
theorem c5_separator_mode_context_witness :
    (1 ≠ 0 ∧ ∀ l ∈ [['a', ',', 'b']],
      (sepRender [TmplItem.xRef 1] (fun t => t.splitOn ',') l).isSome) ∧
    ((genLoop ⟨1, false, false, false⟩ [TmplItem.xRef 1]
        (some fun t => t.splitOn ',') [] [['a', ',', 'b']]).sent =
      [['a', ',', 'b']].map
        (fun l => (sepRender [TmplItem.xRef 1] (fun t => t.splitOn ',') l).getD []) ∧
    (genLoop ⟨1, false, false, false⟩ [TmplItem.xRef 1]
        (some fun t => t.splitOn ',') [] [['a', ',', 'b']]).sent.length =
      [['a', ',', 'b']].length ∧
    (∀ l : List Char,
      renderItems [TmplItem.lineRef] ⟨[l], l.splitOn ','⟩ = some l) ∧
    (∀ (l : List Char) (n : Nat),
      renderItems [TmplItem.xRef n] ⟨[l], l.splitOn ','⟩ = (l.splitOn ',')[n]?)) :=
  ⟨⟨by decide, by decide⟩,
    c5_separator_mode_context 1 false false [TmplItem.xRef 1]
      (fun t => t.splitOn ',') [['a', ',', 'b']] (by decide) (by decide)⟩

/-- C7: if the template contains an indexed reference `N` and some batch
has fewer than `N + 1` lines, that batch's render fails, the generator
aborts the whole run fatally (`check` → `log.Fatal`), the failing batch
produces no command, and only the batches strictly before the first
failing one are rendered and emitted — no further batches are generated. -/
theorem c7_render_out_of_range_fatal (k : Nat) (v c : Bool) (tmpl : List TmplItem)
    (lines : List (List Char)) (n : Nat)
    (hmem : TmplItem.xRef n ∈ tmpl)
    (hb : ∃ b ∈ batchesOf k lines, b.length ≤ n) :
    (genLoop ⟨k, v, false, c⟩ tmpl none [] lines).fatal = true ∧
    (genLoop ⟨k, v, false, c⟩ tmpl none [] lines).sent =
      ((batchesOf k lines).takeWhile (fun b => (renderBatch tmpl b).isSome)).map
        (fun b => (renderBatch tmpl b).getD []) := by
  obtain ⟨b, hbin, hblen⟩ := hb
  have hnone : renderBatch tmpl b = none := renderItems_oob tmpl ⟨b, b⟩ n hmem hblen
  have hspec := genLoop_count_spec ⟨k, v, false, c⟩ rfl tmpl lines []
  have hfail := emitUntilFatal_first_fail (renderBatch tmpl) (batchesOf k lines)
    ⟨b, hbin, hnone⟩
  have hsent := congrArg Prod.fst hspec
  have hfat := congrArg Prod.snd hspec
  simp only at hsent hfat
  rw [show batchAux k [] lines = batchesOf k lines from rfl, hfail] at hsent hfat
  exact ⟨hfat, hsent⟩

/-- Witness for C7 at a concrete input: the template referencing token 2
against one-line batches fails on the very first batch, so the run is
fatal and no command is emitted. -/
theorem c7_render_out_of_range_fatal_witness :
    (TmplItem.xRef 2 ∈ [TmplItem.xRef 2] ∧
      ∃ b ∈ batchesOf 1 [['a']], b.length ≤ 2) ∧
    ((genLoop ⟨1, false, false, false⟩ [TmplItem.xRef 2] none [] [['a']]).fatal = true ∧
      (genLoop ⟨1, false, false, false⟩ [TmplItem.xRef 2] none [] [['a']]).sent =
        ((batchesOf 1 [['a']]).takeWhile
          (fun b => (renderBatch [TmplItem.xRef 2] b).isSome)).map
          (fun b => (renderBatch [TmplItem.xRef 2] b).getD [])) :=
  ⟨⟨by decide, by decide⟩,
    c7_render_out_of_range_fatal 1 false false [TmplItem.xRef 2] [['a']] 2
      (by decide) (by decide)⟩

/-- C8: in dry-run mode no command is ever forwarded to the execution
channel, stdout carries exactly the rendered command strings, one per
line, in generation order (the very strings a non-dry run would forward),
and since the engine receives no commands it yields no results, so the
run's exit status is 0, the success code. -/
theorem c8_dry_run_no_execution (k : Nat) (v co : Bool) (tmpl : List TmplItem)
    (sp? : Option (List Char → List (List Char))) (input : List Char) :
    (genCommands ⟨k, v, true, co⟩ tmpl sp? input).sent = [] ∧
    (genCommands ⟨k, v, true, co⟩ tmpl sp? input).dryOut =
      joinLines ((genCommands ⟨k, v, false, co⟩ tmpl sp? input).sent) ∧
    mainExit (run co []) = 0 := by
  obtain ⟨h1, h2⟩ := genLoop_dry_spec k v co tmpl sp? (getLines input) []
  refine ⟨h1, h2, ?_⟩
  cases co <;> rfl

theorem flattenToks_cons (t : PatTok) (ts : List PatTok) :
    flattenToks (t :: ts) = flattenTok t ++ flattenToks ts := by
  simp [flattenToks]

theorem flattenToks_append (a b : List PatTok) :
    flattenToks (a ++ b) = flattenToks a ++ flattenToks b := by
  simp [flattenToks]

theorem flattenToks_map_ch (l : List Char) :
    flattenToks (l.map PatTok.ch) = l := by
  induction l with
  | nil => rfl
  | cons c cs ih => simp [List.map_cons, flattenToks_cons, flattenTok, ih]

theorem rbGo_true_rbrace (cs : List Char) :
    rbGo true ('}' :: cs) = linesAction ++ rbGo false cs := rfl

theorem rbGo_true_obrace (cs : List Char) :
    rbGo true ('{' :: cs) = '{' :: rbGo true cs := rfl

theorem rbGo_true_other (c : Char) (cs : List Char) (h1 : ¬c = '}') (h2 : ¬c = '{') :
    rbGo true (c :: cs) = '{' :: c :: rbGo false cs := by
  simp [rbGo, h1, h2]

theorem rbGo_false_obrace (cs : List Char) :
    rbGo false ('{' :: cs) = rbGo true cs := rfl

theorem rbGo_false_other (c : Char) (cs : List Char) (h : ¬c = '{') :
    rbGo false (c :: cs) = c :: rbGo false cs := by
  simp [rbGo, h]

theorem rdGo_none_obrace (cs : List Char) :
    rdGo none ('{' :: cs) = rdGo (some []) cs := rfl

theorem rdGo_none_other (c : Char) (cs : List Char) (h : ¬c = '{') :
    rdGo none (c :: cs) = c :: rdGo none cs := by
  simp [rdGo, h]

theorem rdGo_some_rbrace_nil (cs : List Char) :
    rdGo (some []) ('}' :: cs) = '{' :: '}' :: rdGo none cs := rfl

theorem rdGo_some_rbrace (d : Char) (ds cs : List Char) :
    rdGo (some (d :: ds)) ('}' :: cs) = xsAction (d :: ds).reverse ++ rdGo none cs := rfl

theorem digit_ne_rbrace (c : Char) (h : c.isDigit = true) : ¬c = '}' := by
  rintro rfl
  exact absurd h (by decide)

theorem digit_ne_obrace (c : Char) (h : c.isDigit = true) : ¬c = '{' := by
  rintro rfl
  exact absurd h (by decide)

theorem rdGo_some_digit (ds : List Char) (c : Char) (cs : List Char)
    (h : c.isDigit = true) :
    rdGo (some ds) (c :: cs) = rdGo (some (c :: ds)) cs := by
  simp [rdGo, digit_ne_rbrace c h, h]

theorem rdGo_some_obrace (ds cs : List Char) :
    rdGo (some ds) ('{' :: cs) = ('{' :: ds.reverse) ++ rdGo (some []) cs := rfl

theorem rdGo_some_other (ds : List Char) (c : Char) (cs : List Char)
    (h1 : ¬c = '}') (h2 : c.isDigit = false) (h3 : ¬c = '{') :
    rdGo (some ds) (c :: cs) = ('{' :: ds.reverse) ++ (c :: rdGo none cs) := by
  simp [rdGo, h1, h2, h3]

theorem patToksGo_none_obrace (cs : List Char) :
    patToksGo none ('{' :: cs) = patToksGo (some []) cs := rfl

theorem patToksGo_none_other (c : Char) (cs : List Char) (h : ¬c = '{') :
    patToksGo none (c :: cs) = PatTok.ch c :: patToksGo none cs := by
  simp [patToksGo, h]

theorem patToksGo_some_rbrace_nil (cs : List Char) :
    patToksGo (some []) ('}' :: cs) = PatTok.line :: patToksGo none cs := rfl

theorem patToksGo_some_rbrace (d : Char) (ds cs : List Char) :
    patToksGo (some (d :: ds)) ('}' :: cs) =
      PatTok.x (d :: ds).reverse :: patToksGo none cs := rfl

theorem patToksGo_some_digit (ds : List Char) (c : Char) (cs : List Char)
    (h : c.isDigit = true) :
    patToksGo (some ds) (c :: cs) = patToksGo (some (c :: ds)) cs := by
  simp [patToksGo, digit_ne_rbrace c h, h]

theorem patToksGo_some_obrace (ds cs : List Char) :
    patToksGo (some ds) ('{' :: cs) =
      PatTok.ch '{' :: ds.reverse.map PatTok.ch ++ patToksGo (some []) cs := rfl

theorem patToksGo_some_other (ds : List Char) (c : Char) (cs : List Char)
    (h1 : ¬c = '}') (h2 : c.isDigit = false) (h3 : ¬c = '{') :
    patToksGo (some ds) (c :: cs) =
      PatTok.ch '{' :: ds.reverse.map PatTok.ch ++ (PatTok.ch c :: patToksGo none cs) := by
  simp [patToksGo, h1, h2, h3]

theorem rdGo_linesAction_none (X : List Char) :
    rdGo none (linesAction ++ X) = linesAction ++ rdGo none X := rfl

theorem rdGo_linesAction_some (ds X : List Char) :
    rdGo (some ds) (linesAction ++ X) =
      '{' :: (ds.reverse ++ (linesAction ++ rdGo none X)) := rfl

theorem flattenToks_reverse_map_ch (l : List Char) :
    flattenToks ((l.map PatTok.ch).reverse) = l.reverse := by
  rw [← List.map_reverse, flattenToks_map_ch]

theorem rewrite_sim (cmd : List Char) :
    (rdGo none (rbGo false cmd) = flattenToks (patToksGo none cmd)) ∧
    (rdGo none (rbGo true cmd) = flattenToks (patToksGo (some []) cmd)) ∧
    (∀ ds : List Char, ds ≠ [] →
      rdGo (some ds) (rbGo false cmd) = flattenToks (patToksGo (some ds) cmd)) ∧
    (∀ ds : List Char,
      rdGo (some ds) (rbGo true cmd) =
        '{' :: (ds.reverse ++ flattenToks (patToksGo (some []) cmd))) := by
  induction cmd with
  | nil =>
    refine ⟨rfl, rfl, ?_, ?_⟩
    · intro ds _
      show '{' :: ds.reverse = _
      rw [show patToksGo (some ds) [] = PatTok.ch '{' :: ds.reverse.map PatTok.ch from rfl,
        flattenToks_cons, flattenToks_map_ch]
      rfl
    · intro ds
      show ('{' :: ds.reverse) ++ rdGo (some []) [] = _
      rw [show patToksGo (some []) ([] : List Char) = [PatTok.ch '{'] from rfl]
      rw [show flattenToks [PatTok.ch '{'] = ['{'] from rfl]
      rfl
  | cons c cs ih =>
    obtain ⟨ihfn, ihtn, ihfd, ihtd⟩ := ih
    by_cases hcl : c = '}'
    · subst hcl
      refine ⟨?_, ?_, ?_, ?_⟩
      · rw [rbGo_false_other _ _ (by decide), rdGo_none_other _ _ (by decide),
          patToksGo_none_other _ _ (by decide), flattenToks_cons, ihfn]
        rfl
      · rw [rbGo_true_rbrace, rdGo_linesAction_none, patToksGo_some_rbrace_nil,
          flattenToks_cons, ihfn]
        rfl
      · intro ds hds
        obtain ⟨d, ds2, rfl⟩ : ∃ d ds2, ds = d :: ds2 := by
          cases ds with
          | nil => exact absurd rfl hds
          | cons d ds2 => exact ⟨d, ds2, rfl⟩
        rw [rbGo_false_other _ _ (by decide), rdGo_some_rbrace,
          patToksGo_some_rbrace, flattenToks_cons, ihfn]
        rfl
      · intro ds
        rw [rbGo_true_rbrace, rdGo_linesAction_some, patToksGo_some_rbrace_nil,
          flattenToks_cons, ihfn]
        rfl
    · by_cases hbr : c = '{'
      · subst hbr
        refine ⟨?_, ?_, ?_, ?_⟩
        · rw [rbGo_false_obrace, patToksGo_none_obrace]
          exact ihtn
        · rw [rbGo_true_obrace, rdGo_none_obrace, patToksGo_some_obrace, ihtd []]
          simp [flattenToks_append, flattenToks_cons, flattenTok]
        · intro ds _
          rw [rbGo_false_obrace, patToksGo_some_obrace, ihtd ds]
          simp [flattenToks_append, flattenToks_cons, flattenToks_map_ch,
            flattenToks_reverse_map_ch, flattenTok]
        · intro ds
          rw [rbGo_true_obrace, rdGo_some_obrace, ihtd [], patToksGo_some_obrace]
          simp [flattenToks_append, flattenToks_cons, flattenToks_map_ch,
            flattenToks_reverse_map_ch, flattenTok]
      · by_cases hdig : c.isDigit = true
        · refine ⟨?_, ?_, ?_, ?_⟩
          · rw [rbGo_false_other _ _ hbr, rdGo_none_other _ _ hbr,
              patToksGo_none_other _ _ hbr, flattenToks_cons, ihfn]
            rfl
          · rw [rbGo_true_other _ _ hcl hbr, rdGo_none_obrace, rdGo_some_digit _ _ _ hdig,
              patToksGo_some_digit _ _ _ hdig, ihfd [c] (by simp)]
          · intro ds hds
            rw [rbGo_false_other _ _ hbr, rdGo_some_digit _ _ _ hdig,
              patToksGo_some_digit _ _ _ hdig, ihfd (c :: ds) (by simp)]
          · intro ds
            rw [rbGo_true_other _ _ hcl hbr, rdGo_some_obrace,
              rdGo_some_digit _ _ _ hdig, patToksGo_some_digit _ _ _ hdig,
              ihfd [c] (by simp)]
            rfl
        · have hdig' : c.isDigit = false := by
            simpa using hdig
          refine ⟨?_, ?_, ?_, ?_⟩
          · rw [rbGo_false_other _ _ hbr, rdGo_none_other _ _ hbr,
              patToksGo_none_other _ _ hbr, flattenToks_cons, ihfn]
            rfl
          · rw [rbGo_true_other _ _ hcl hbr, rdGo_none_obrace,
              rdGo_some_other _ _ _ hcl hdig' hbr, patToksGo_some_other _ _ _ hcl hdig' hbr,
              ihfn]
            simp [flattenToks_append, flattenToks_cons, flattenToks_map_ch,
            flattenToks_reverse_map_ch, flattenTok]
          · intro ds _
            rw [rbGo_false_other _ _ hbr, rdGo_some_other _ _ _ hcl hdig' hbr,
              patToksGo_some_other _ _ _ hcl hdig' hbr, ihfn]
            simp [flattenToks_append, flattenToks_cons, flattenToks_map_ch,
            flattenToks_reverse_map_ch, flattenTok]
          · intro ds
            rw [rbGo_true_other _ _ hcl hbr, rdGo_some_obrace,
              rdGo_some_other _ _ _ hcl hdig' hbr, patToksGo_some_other _ _ _ hcl hdig' hbr,
              ihfn]
            simp [flattenToks_append, flattenToks_cons, flattenToks_map_ch,
            flattenToks_reverse_map_ch, flattenTok]

/-- The two string rewrites of `makeCommandTmpl` substitute exactly the
token decomposition of the pattern. -/
theorem makeCommandTmpl_eq_flatten (cmd : List Char) :
    makeCommandTmpl cmd = flattenToks (patternTokens cmd) :=
  (rewrite_sim cmd).1

theorem toksWf_cons (t : PatTok) (ts : List PatTok) :
    toksWf (t :: ts) = (tokWf t && toksWf ts) := rfl

theorem toksWf_append (a b : List PatTok) :
    toksWf (a ++ b) = (toksWf a && toksWf b) := by
  simp [toksWf, List.all_append]

theorem toksWf_map_ch (l : List Char) : toksWf (l.map PatTok.ch) = true := by
  induction l with
  | nil => rfl
  | cons c cs ih => simp [List.map_cons, toksWf_cons, tokWf, ih]

theorem patToksGo_wf : ∀ (cmd : List Char) (st : Option (List Char)),
    (∀ ds, st = some ds → ds.all Char.isDigit = true) →
    toksWf (patToksGo st cmd) = true := by
  intro cmd
  induction cmd with
  | nil =>
    intro st hst
    cases st with
    | none => rfl
    | some ds =>
      rw [show patToksGo (some ds) [] = PatTok.ch '{' :: ds.reverse.map PatTok.ch from rfl,
        toksWf_cons, toksWf_map_ch]
      rfl
  | cons c cs ih =>
    intro st hst
    cases st with
    | none =>
      by_cases hbr : c = '{'
      · subst hbr
        rw [patToksGo_none_obrace]
        exact ih (some []) (by rintro ds ⟨rfl⟩; rfl)
      · rw [patToksGo_none_other _ _ hbr, toksWf_cons, ih none (by rintro ds ⟨⟩)]
        rfl
    | some ds =>
      have hds : ds.all Char.isDigit = true := hst ds rfl
      by_cases hcl : c = '}'
      · subst hcl
        cases ds with
        | nil =>
          rw [patToksGo_some_rbrace_nil, toksWf_cons, ih none (by rintro ds ⟨⟩)]
          rfl
        | cons d ds2 =>
          rw [patToksGo_some_rbrace, toksWf_cons, ih none (by rintro ds ⟨⟩)]
          have hx : tokWf (PatTok.x (d :: ds2).reverse) = true := by
            simp only [tokWf, List.all_reverse, hds, Bool.and_true]
            simp
          rw [hx]
          rfl
      · by_cases hdig : c.isDigit = true
        · rw [patToksGo_some_digit _ _ _ hdig]
          exact ih (some (c :: ds)) (by
            rintro ds' ⟨rfl⟩
            simp [List.all_cons, hdig, hds])
        · have hdig' : c.isDigit = false := by simpa using hdig
          by_cases hbr : c = '{'
          · subst hbr
            rw [patToksGo_some_obrace, toksWf_append, toksWf_cons, toksWf_map_ch,
              ih (some []) (by rintro ds' ⟨rfl⟩; rfl)]
            rfl
          · rw [patToksGo_some_other _ _ _ hcl hdig' hbr, toksWf_append, toksWf_cons,
              toksWf_map_ch, toksWf_cons, ih none (by rintro ds' ⟨⟩)]
            rfl

theorem patternTokens_wf (cmd : List Char) : toksWf (patternTokens cmd) = true :=
  patToksGo_wf cmd none (by rintro ds ⟨⟩)

theorem okSeq_tail (t : PatTok) (ts : List PatTok) (h : okSeq (t :: ts) = true) :
    okSeq ts = true := by
  cases ts with
  | nil => rfl
  | cons t2 ts2 =>
    simp only [okSeq, Bool.and_eq_true] at h
    exact h.2

theorem parseGo_linesAction (X : List Char) :
    parseGo .norm (linesAction ++ X) =
      (parseGo .norm X).map (fun ts => TmplItem.lineRef :: ts) := rfl

theorem parseGo_digits (ds : List Char) :
    ∀ (acc X : List Char), ds.all Char.isDigit = true →
      parseGo (.inAction acc) (ds ++ '}' :: '}' :: X) =
        (match actionOf (acc.reverse ++ ds) with
         | some item => (parseGo .norm X).map (fun ts => item :: ts)
         | none => none) := by
  induction ds with
  | nil =>
    intro acc X _
    simp [parseGo]
  | cons d ds ih =>
    intro acc X hall
    simp only [List.all_cons, Bool.and_eq_true] at hall
    obtain ⟨hd, hds⟩ := hall
    have hne : ¬d = '}' := digit_ne_rbrace d hd
    rw [List.cons_append,
      show parseGo (.inAction acc) (d :: (ds ++ '}' :: '}' :: X)) =
        parseGo (.inAction (d :: acc)) (ds ++ '}' :: '}' :: X) from by simp [parseGo, hne],
      ih (d :: acc) X hds,
      show (d :: acc).reverse ++ ds = acc.reverse ++ (d :: ds) from by simp]

theorem actionOf_xs (ds : List Char) :
    actionOf (['i', 'n', 'd', 'e', 'x', ' ', '.', 'X', 's', ' '] ++ ds) =
      (goIntLit ds).map TmplItem.xRef := by
  simp [actionOf]

theorem parseGo_xsAction (ds X : List Char) (h : ds.all Char.isDigit = true) :
    parseGo .norm (xsAction ds ++ X) =
      (match goIntLit ds with
       | some n => (parseGo .norm X).map (fun ts => TmplItem.xRef n :: ts)
       | none => none) := by
  have hassoc : xsAction ds ++ X =
      ['{', '{', 'i', 'n', 'd', 'e', 'x', ' ', '.', 'X', 's', ' '] ++
        (ds ++ ('}' :: '}' :: X)) := by
    simp [xsAction]
  rw [hassoc,
    show ∀ Y, parseGo .norm (['{', '{', 'i', 'n', 'd', 'e', 'x', ' ', '.', 'X', 's', ' '] ++ Y) =
      parseGo (.inAction [' ', 's', 'X', '.', ' ', 'x', 'e', 'd', 'n', 'i']) Y from fun Y => rfl,
    parseGo_digits ds _ X h,
    show ([' ', 's', 'X', '.', ' ', 'x', 'e', 'd', 'n', 'i'] : List Char).reverse =
      ['i', 'n', 'd', 'e', 'x', ' ', '.', 'X', 's', ' '] from rfl,
    actionOf_xs ds]
  cases goIntLit ds <;> rfl

theorem parse_flatten : ∀ (toks : List PatTok), toksWf toks = true → okSeq toks = true →
    parseGo .norm (flattenToks toks) = itemsOf toks := by
  have H : ∀ (n : Nat) (toks : List PatTok), toks.length ≤ n → toksWf toks = true →
      okSeq toks = true → parseGo .norm (flattenToks toks) = itemsOf toks := by
    intro n
    induction n with
    | zero =>
      intro toks hlen _ _
      have h0 : toks = [] := List.length_eq_zero.mp (Nat.le_zero.mp hlen)
      subst h0
      rfl
    | succ n ihn =>
      intro toks hlen hwf hseq
      cases toks with
      | nil => rfl
      | cons t ts =>
        rw [toksWf_cons, Bool.and_eq_true] at hwf
        obtain ⟨hwft, hwfts⟩ := hwf
        have hlen' : ts.length ≤ n := by
          simp only [List.length_cons] at hlen
          omega
        have hseqts : okSeq ts = true := okSeq_tail t ts hseq
        cases t with
        | line =>
          rw [flattenToks_cons,
            show flattenTok PatTok.line = linesAction from rfl,
            parseGo_linesAction, ihn ts hlen' hwfts hseqts]
          rfl
        | x ds =>
          have hdig : ds.all Char.isDigit = true := by
            simp only [tokWf, Bool.and_eq_true] at hwft
            exact hwft.2
          rw [flattenToks_cons,
            show flattenTok (PatTok.x ds) = xsAction ds from rfl,
            parseGo_xsAction _ _ hdig, ihn ts hlen' hwfts hseqts]
          cases hgl : goIntLit ds <;> simp [itemsOf, hgl]
        | ch c =>
          by_cases hbr : c = '{'
          · subst hbr
            cases ts with
            | nil => rfl
            | cons t2 ts2 =>
              have hsb : startsBrace t2 = false := by
                simp only [okSeq, Bool.and_eq_true, if_pos rfl] at hseq
                simpa using hseq.1
              obtain ⟨c2, rfl, hc2⟩ : ∃ c2, t2 = PatTok.ch c2 ∧ ¬c2 = '{' := by
                cases t2 with
                | line => simp [startsBrace] at hsb
                | x ds => simp [startsBrace] at hsb
                | ch c2 =>
                  refine ⟨c2, rfl, ?_⟩
                  simpa [startsBrace] using hsb
              have hwfts2 : toksWf ts2 = true := by
                rw [toksWf_cons, Bool.and_eq_true] at hwfts
                exact hwfts.2
              have hseqts2 : okSeq ts2 = true := okSeq_tail _ _ hseqts
              have hlen2 : ts2.length ≤ n := by
                simp only [List.length_cons] at hlen'
                omega
              rw [flattenToks_cons, flattenToks_cons]
              rw [show flattenTok (PatTok.ch '{') ++ (flattenTok (PatTok.ch c2) ++ flattenToks ts2) =
                '{' :: c2 :: flattenToks ts2 from rfl]
              rw [show parseGo .norm ('{' :: c2 :: flattenToks ts2) =
                (parseGo .norm (flattenToks ts2)).map
                  (fun l => TmplItem.lit '{' :: TmplItem.lit c2 :: l) from by
                simp [parseGo, hc2]]
              rw [ihn ts2 hlen2 hwfts2 hseqts2]
              cases hts2 : itemsOf ts2 <;> simp [itemsOf, hts2]
          · rw [flattenToks_cons,
              show flattenTok (PatTok.ch c) ++ flattenToks ts = c :: flattenToks ts from rfl]
            rw [show parseGo .norm (c :: flattenToks ts) =
              (parseGo .norm (flattenToks ts)).map (fun l => TmplItem.lit c :: l) from by
              simp [parseGo, hbr]]
            rw [ihn ts hlen' hwfts hseqts]
            rfl
  intro toks
  exact H toks.length toks (Nat.le_refl _)

theorem itemsOf_render : ∀ (toks : List PatTok) (items : List TmplItem),
    itemsOf toks = some items → ∀ a : TmplArgs, renderItems items a = specRenderGo toks a := by
  intro toks
  induction toks with
  | nil =>
    intro items h a
    simp only [itemsOf, Option.some.injEq] at h
    subst h
    rfl
  | cons t ts ih =>
    intro items h a
    cases t with
    | line =>
      simp only [itemsOf] at h
      cases hts : itemsOf ts with
      | none => rw [hts] at h; simp at h
      | some its =>
        rw [hts] at h
        simp at h
        subst h
        simp only [renderItems, specRenderGo]
        cases hx : a.Lines[0]? <;> simp [hx, ih its hts a]
    | x ds =>
      simp only [itemsOf] at h
      cases hgl : goIntLit ds with
      | none => rw [hgl] at h; simp at h
      | some m =>
        rw [hgl] at h
        cases hts : itemsOf ts with
        | none => rw [hts] at h; simp at h
        | some its =>
          rw [hts] at h
          simp at h
          subst h
          simp only [renderItems, specRenderGo, hgl]
          cases hx : a.Xs[m]? <;> simp [hx, ih its hts a]
    | ch c =>
      simp only [itemsOf] at h
      cases hts : itemsOf ts with
      | none => rw [hts] at h; simp at h
      | some its =>
        rw [hts] at h
        simp at h
        subst h
        simp only [renderItems, specRenderGo]
        simp [ih its hts a]

/-- C6 counterexample: the index of an indexed token is not taken
verbatim from the digits.  The rewritten action carries the digits
verbatim, but the host template engine reads them as a Go integer
literal, so the pattern token with digits `017` (octal 15) renders
element 15 of `Xs`, not element 17 as the claim requires; and a pattern
containing raw template-action text (here a literal `index .Xs 0` action
between double braces) does not have its other characters emitted
verbatim — the action renders `Xs` element 0 instead. -/
theorem c6_octal_index_counterexample :
    renderPattern ['{', '0', '1', '7', '}']
      ⟨[], [['A'], ['B'], ['C'], ['D'], ['E'], ['F'], ['G'], ['H'], ['I'], ['J'],
        ['K'], ['L'], ['M'], ['N'], ['O'], ['P'], ['Q'], ['R']]⟩ = some ['P'] ∧
    specRenderDecimal (patternTokens ['{', '0', '1', '7', '}'])
      ⟨[], [['A'], ['B'], ['C'], ['D'], ['E'], ['F'], ['G'], ['H'], ['I'], ['J'],
        ['K'], ['L'], ['M'], ['N'], ['O'], ['P'], ['Q'], ['R']]⟩ = some ['R'] ∧
    (['P'] : List Char) ≠ ['R'] ∧
    renderPattern
      ['a', '{', '{', 'i', 'n', 'd', 'e', 'x', ' ', '.', 'X', 's', ' ', '0', '}', '}', 'b']
      ⟨[], [['Q']]⟩ = some ['a', 'Q', 'b'] ∧
    specRenderDecimal (patternTokens
      ['a', '{', '{', 'i', 'n', 'd', 'e', 'x', ' ', '.', 'X', 's', ' ', '0', '}', '}', 'b'])
      ⟨[], [['Q']]⟩ =
      some ['a', '{', '{', 'i', 'n', 'd', 'e', 'x', ' ', '.', 'X', 's', ' ', '0', '}', '}', 'b'] := by
  decide

/-- C6 amended: for every command pattern that does not smuggle raw
template-action syntax past the rewrites (no literal opening brace
directly followed by a brace pair, an indexed token, or another opening
brace — `okSeq`), if compilation succeeds then the compiled template
renders exactly as per-token substitution: every brace pair becomes the
first element of `Lines`, every indexed token becomes the element of
`Xs` at the index obtained by reading its digits as a Go integer literal
(octal when the digits have a leading zero — not the verbatim decimal
value), and every other character is emitted verbatim. -/
theorem c6_template_substitution_amended (cmd : List Char) (items : List TmplItem)
    (a : TmplArgs) (hseq : okSeq (patternTokens cmd) = true)
    (hp : compileTmpl cmd = some items) :
    renderItems items a = specRenderGo (patternTokens cmd) a := by
  have hF : makeCommandTmpl cmd = flattenToks (patternTokens cmd) :=
    makeCommandTmpl_eq_flatten cmd
  have hwf : toksWf (patternTokens cmd) = true := patternTokens_wf cmd
  have hP := parse_flatten (patternTokens cmd) hwf hseq
  unfold compileTmpl parseTmpl at hp
  rw [hF, hP] at hp
  exact itemsOf_render (patternTokens cmd) items hp a

/-- Witness for the amended C6 at a concrete input: the pattern
consisting of a brace pair, a dash, and the indexed token `017` compiles
to a line reference, a literal dash, and an `Xs` reference with octal
index 15, and renders accordingly. -/
theorem c6_template_substitution_amended_witness :
    (okSeq (patternTokens ['{', '}', '-', '{', '0', '1', '7', '}']) = true ∧
      compileTmpl ['{', '}', '-', '{', '0', '1', '7', '}'] =
        some [TmplItem.lineRef, TmplItem.lit '-', TmplItem.xRef 15]) ∧
    renderItems [TmplItem.lineRef, TmplItem.lit '-', TmplItem.xRef 15]
        ⟨[['L']], [['A'], ['B'], ['C'], ['D'], ['E'], ['F'], ['G'], ['H'], ['I'], ['J'],
          ['K'], ['L'], ['M'], ['N'], ['O'], ['P'], ['Q'], ['R']]⟩ =
      specRenderGo (patternTokens ['{', '}', '-', '{', '0', '1', '7', '}'])
        ⟨[['L']], [['A'], ['B'], ['C'], ['D'], ['E'], ['F'], ['G'], ['H'], ['I'], ['J'],
          ['K'], ['L'], ['M'], ['N'], ['O'], ['P'], ['Q'], ['R']]⟩ :=
  ⟨⟨by decide, by decide⟩,
    c6_template_substitution_amended ['{', '}', '-', '{', '0', '1', '7', '}']
      [TmplItem.lineRef, TmplItem.lit '-', TmplItem.xRef 15] _ (by decide) (by decide)⟩
